import Mathlib

set_option maxHeartbeats 1000000

namespace FunctionalCxx

/-!
Shallow embedding of the Functional-Cxx library (Geopipe/Functional-Cxx).

The embedding covers:
- the slot re-construction primitive `detail::emplace` from
  include/functional-cxx/support/memory-hacks.hpp;
- the move-only type-erased callable `detail::UniqueFunction` from
  include/functional-cxx/support/unique-function.hpp;
- the memoizing lazy `Stream` from include/functional-cxx/stream.hpp
  (`tail`, `head`, `Nil`, `Cell`, `StreamIterator`, `begin`/`end`, `map`).

Machine integers play no role here; the interesting state is the heap of
reference-counted `Stream` nodes.  We model that heap explicitly: addresses
are natural numbers, `shared_ptr<Stream<E>>` is `Option Nat` (`none` is the
null pointer, i.e. `Stream::Nil`), and allocation is a bump allocator.
Pointer identity of `shared_ptr` is equality of addresses.
-/

/-! ## Slot re-construction primitive (memory-hacks.hpp, `detail::emplace`)

The C++ source is

  template<typename T, typename ...Arg>
  T& emplace(T& t, Arg&& ...arg) \x7b
    t.~T();
    new (&t) T(std::forward<Arg>(arg)...);
    return t;
  \x7d

We model storage as a partial map from addresses to values of type `T`
(`none` marks a location that does not currently hold a live `T`).  The
destructor call becomes `destroyAt`; the placement-new becomes
`constructAt`; `emplace` is their composition and returns the address it
was given, modeling `return t` returning a reference to the same storage. -/

def destroyAt {T : Type} (mem : Nat → Option T) (a : Nat) : Nat → Option T :=
  fun i => if i = a then none else mem i

def constructAt {T : Type} (mem : Nat → Option T) (a : Nat) (v : T) : Nat → Option T :=
  fun i => if i = a then some v else mem i

/-- Model of `detail::emplace`: destroy the value living at `a`, construct a
new value there from the constructor arguments (represented by the already
constructed value `v`), and return the same location together with the
updated memory. -/
def emplaceAt {T : Type} (mem : Nat → Option T) (a : Nat) (v : T) :
    (Nat → Option T) × Nat :=
  (constructAt (destroyAt mem a) a v, a)

/-! ## Type-erased deferred callable (unique-function.hpp, `detail::UniqueFunction`)

`UniqueFunction<R()>` owns a `std::unique_ptr<FunctionHolderBase> fh_`.
The move constructor is `fh_(std::move(uf.fh_))`, which leaves the source's
`fh_` null.  `operator()` is `return std::invoke(*fh_);` with no null
check: invoking a moved-from handle dereferences the null holder pointer,
which can never produce a value — we model that fallible dereference with
`Option`, `none` being the fail-fast invalid-state outcome. -/

structure UniqueFunction (R : Type) where
  fh : Option (Unit → R)

namespace UniqueFunction

/-- Move construction: the destination steals the holder, the moved-from
source is left holding the null pointer.  Returns `(destination, source after
the move)`. -/
def moveConstruct {R : Type} (uf : UniqueFunction R) :
    UniqueFunction R × UniqueFunction R :=
  (⟨uf.fh⟩, ⟨none⟩)

/-- Model of `UniqueFunction::operator()`: dereference the holder and invoke
it.  A null holder (moved-from handle) has nothing to invoke; the operation
fails (`none`) instead of producing a value. -/
def call {R : Type} (uf : UniqueFunction R) : Option R :=
  uf.fh.map (fun f => f ())

/-- Model of `UniqueFunction::operator bool`. -/
def toBool {R : Type} (uf : UniqueFunction R) : Bool :=
  uf.fh.isSome

end UniqueFunction

/-! ## The Stream heap machine (stream.hpp)

A `Stream<E>` node stores `E head_` and the tail slot
`mutable boost::variant<StreamT, F> tail_` — either an already materialized
next reference (`which() == 0`) or a pending generator (`which() == 1`).

Generators that occur in the code and in the spec's instrumented tests are
closures; we represent exactly the closure shapes the claims need:

- `Code.gen n` — the spec's counting instrumented source generator: when
  invoked it bumps a global invocation counter and, if the source has not
  ended (`n < C.len`), allocates the next source cell
  `Cell(C.elem n, gen (n+1))`, otherwise returns `Nil`.
- `Code.mapF src` — the `MapF` closure from `Stream::map` (stream.hpp
  lines 235-253).  Its captured `src_ : std::function<StreamT()>` is either
  the initial `[sharedThis]() \x7b return sharedThis; \x7d` (`SrcFn.ret a`) or the
  recursive `[src]() \x7b return src->tail(); \x7d` (`SrcFn.tailOf a`). -/

/-- The captured `src_` of a `MapF` closure. -/
inductive SrcFn where
  | ret (a : Nat)
  | tailOf (a : Nat)
deriving DecidableEq

/-- Representation of the generator closures stored in pending tail slots. -/
inductive Code where
  | gen (n : Nat)
  | mapF (src : SrcFn)
deriving DecidableEq

/-- The tail slot: `mat r` is the materialized variant (`which() == 0`,
holding a possibly-null `StreamT`), `pend c` the pending-generator variant
(`which() == 1`). -/
inductive TailSlot where
  | mat (r : Option Nat)
  | pend (c : Code)
deriving DecidableEq

/-- One `Stream<E>` node: the immutable `head_` and the mutable tail slot. -/
structure Node (E : Type) where
  head : E
  slot : TailSlot

/-- The heap: a bump allocator over node addresses, plus the instrumentation
counter for source generator invocations (the spec's "counting instrumented
generator"). -/
structure St (E : Type) where
  mem : Nat → Option (Node E)
  size : Nat
  invocations : Nat

theorem St.ext {E : Type} {s t : St E} (hm : s.mem = t.mem)
    (hs : s.size = t.size) (hi : s.invocations = t.invocations) : s = t := by
  cases s; cases t; cases hm; cases hs; cases hi; rfl

/-- The empty heap. -/
def emptySt {E : Type} : St E := ⟨fun _ => none, 0, 0⟩

/-- Allocate a fresh node (models `std::make_shared` in `Stream::makeShared`),
returning its address. -/
def St.alloc {E : Type} (st : St E) (nd : Node E) : Nat × St E :=
  (st.size,
   ⟨fun i => if i = st.size then some nd else st.mem i, st.size + 1, st.invocations⟩)

/-- Overwrite the tail slot of the node at `a`, keeping its head: this is the
`detail::emplace(tail_, ...)` call in `Stream::tail` (stream.hpp line 187),
which re-constructs only the `tail_` member in place. -/
def St.setSlot {E : Type} (st : St E) (a : Nat) (s : TailSlot) : St E :=
  ⟨fun i => if i = a then (st.mem a).map (fun nd => ⟨nd.head, s⟩) else st.mem i,
   st.size, st.invocations⟩

/-- Bump the instrumentation counter (one source generator invocation). -/
def St.bump {E : Type} (st : St E) : St E :=
  ⟨st.mem, st.size, st.invocations + 1⟩

/-- Parameters of a run: the instrumented source generator's element sequence
`elem`, its length `len`, and the transform `tf` passed to `Stream::map`. -/
structure GenCtx (E : Type) where
  elem : Nat → E
  tf : E → E
  len : Nat

/-- A pending unit of work for the interpreter: forcing the tail of the node
at an address (`Stream::tail`), or running a generator closure. -/
inductive Job where
  | force (a : Nat)
  | run (c : Code)
deriving DecidableEq

/-- Body of `MapF::operator()` after `src_()` has been evaluated to `r`
(stream.hpp lines 244-252): if the source reference is non-null, apply the
transform to its head and allocate the next mapped cell, whose pending
generator is `MapF` over `[src]() \x7b return src->tail(); \x7d`; otherwise
return `Nil`. -/
def mapCont {E : Type} (C : GenCtx E) (r : Option Nat) (st : St E) :
    Option (Option Nat × St E) :=
  match r with
  | none => some (none, st)
  | some a =>
    match st.mem a with
    | none => none
    | some nd =>
      let p := St.alloc st ⟨C.tf nd.head, TailSlot.pend (Code.mapF (SrcFn.tailOf a))⟩
      some (some p.1, p.2)

/-- The fuel-indexed interpreter.  `Job.force a` is `Stream::tail` on the
node at `a` (stream.hpp lines 183-190): if the slot is pending, run the
generator once and store the result with the slot re-construction primitive;
if it is materialized, return the cached reference unchanged.  `Job.run c`
invokes a generator closure.  Fuel exhaustion and dangling addresses yield
`none`; the fuel is a modeling artifact only (every theorem holds for all
sufficiently large fuel). -/
def exec {E : Type} (C : GenCtx E) : Nat → Job → St E → Option (Option Nat × St E)
  | 0, _, _ => none
  | Nat.succ fuel, Job.force a, st =>
    match st.mem a with
    | none => none
    | some nd =>
      match nd.slot with
      | TailSlot.mat r => some (r, st)
      | TailSlot.pend c =>
        (exec C fuel (Job.run c) st).map
          (fun p => (p.1, St.setSlot p.2 a (TailSlot.mat p.1)))
  | Nat.succ _, Job.run (Code.gen n), st =>
    let st1 := St.bump st
    if n < C.len then
      let p := St.alloc st1 ⟨C.elem n, TailSlot.pend (Code.gen (n + 1))⟩
      some (some p.1, p.2)
    else
      some (none, st1)
  | Nat.succ _, Job.run (Code.mapF (SrcFn.ret a)), st => mapCont C (some a) st
  | Nat.succ fuel, Job.run (Code.mapF (SrcFn.tailOf a)), st =>
    (exec C fuel (Job.force a) st).bind (fun p => mapCont C p.1 p.2)

/-- Model of `Stream::tail` as the public entry point. -/
def tailCall {E : Type} (C : GenCtx E) (fuel a : Nat) (st : St E) :
    Option (Option Nat × St E) :=
  exec C fuel (Job.force a) st

/-- Model of `Stream::map` (stream.hpp line 254): build the `MapF` closure
whose `src_` returns `sharedThis` and invoke it immediately. -/
def streamMap {E : Type} (C : GenCtx E) (fuel a : Nat) (st : St E) :
    Option (Option Nat × St E) :=
  exec C fuel (Job.run (Code.mapF (SrcFn.ret a))) st

/-- Repeated calls to `tail` on the same node: `callTailRepeatedly C fuel a
st n` is the result of the `(n+1)`-st call, each call running on the state
left by the previous one. -/
def callTailRepeatedly {E : Type} (C : GenCtx E) (fuel a : Nat) (st : St E) :
    Nat → Option (Option Nat × St E)
  | 0 => exec C fuel (Job.force a) st
  | n + 1 =>
    (callTailRepeatedly C fuel a st n).bind (fun p => exec C fuel (Job.force a) p.2)

/-- Model of `Stream::head` as a pure observation (stream.hpp lines 166-168). -/
def headOf {E : Type} (st : St E) (a : Nat) : Option E :=
  (st.mem a).map Node.head

/-- Model of the `head()` call as a state transformer, to express that it has
no side effects: it returns the head and the state it was given. -/
def headCall {E : Type} (st : St E) (a : Nat) : Option E × St E :=
  ((st.mem a).map Node.head, st)

/-- Model of `Stream::Nil` (stream.hpp lines 193-195): the null reference. -/
def StreamNil : Option Nat := none

/-- Model of `Stream::Cell` (stream.hpp lines 204-207): allocate one node
with the given head and tail slot, returning a (non-null) reference to it. -/
def Cell {E : Type} (h : E) (t : TailSlot) (st : St E) : Option Nat × St E :=
  let p := St.alloc st ⟨h, t⟩
  (some p.1, p.2)

/-! ## The iterator (stream.hpp lines 147-163, 210-222, 261-277) -/

/-- `StreamIterator`: a cursor holding a possibly-null node reference. -/
structure StreamIterator where
  location : Option Nat
deriving DecidableEq

/-- Model of `Stream::end()`: an iterator holding the null reference. -/
def endIter : StreamIterator := ⟨none⟩

/-- Model of `Stream::begin()`: an iterator at `shared_from_this()`. -/
def streamBegin (a : Nat) : StreamIterator := ⟨some a⟩

/-- Model of the `std::begin` overload for `shared_ptr<Stream<E>>`
(stream.hpp lines 267-270): `s ? s->begin() : end(s)`. -/
def beginRef (r : Option Nat) : StreamIterator :=
  match r with
  | some a => streamBegin a
  | none => endIter

/-- Model of `StreamIterator::equal`: `location_ == other.location_`, i.e.
`shared_ptr` identity comparison (equal addresses, or both null). -/
def iterEqual (i₁ i₂ : StreamIterator) : Bool :=
  i₁.location == i₂.location

/-- Model of `StreamIterator::dereference`: `location_->head()`. -/
def iterDeref {E : Type} (it : StreamIterator) (st : St E) : Option E :=
  it.location.bind (fun a => (st.mem a).map Node.head)

/-- Model of `StreamIterator::increment`: `location_ = location_->tail();`.
Incrementing the null cursor dereferences a null pointer and is a failure. -/
def iterIncrement {E : Type} (C : GenCtx E) (fuel : Nat) (it : StreamIterator)
    (st : St E) : Option (StreamIterator × St E) :=
  match it.location with
  | none => none
  | some a => (exec C fuel (Job.force a) st).map (fun p => (⟨p.1⟩, p.2))

/-- Collect the first `k` head values reachable from a reference, forcing a
tail only when a further element is demanded (demanding `k` elements
materializes exactly the nodes holding those `k` heads). -/
def takeHeads {E : Type} (C : GenCtx E) (fuel : Nat) :
    Nat → Option Nat → St E → Option (List E × St E)
  | 0, _, st => some ([], st)
  | _ + 1, none, st => some ([], st)
  | 1, some a, st => (st.mem a).map (fun nd => ([nd.head], st))
  | k + 2, some a, st =>
    (st.mem a).bind (fun nd =>
      (exec C fuel (Job.force a) st).bind (fun p =>
        (takeHeads C fuel (k + 1) p.1 p.2).map (fun q => (nd.head :: q.1, q.2))))

/-! ## Frame and preservation lemmas for the interpreter -/

/-- Well-formedness: all live nodes lie below the bump pointer. -/
def WFSt {E : Type} (st : St E) : Prop := ∀ a, st.size ≤ a → st.mem a = none

/-- What any interpreter step preserves about existing nodes: they stay
allocated, their heads never change, and a materialized tail slot stays
materialized with the same reference (the variant never transitions back to
the pending state). -/
def Pres {E : Type} (st st' : St E) : Prop :=
  st.size ≤ st'.size ∧
  ∀ a nd, st.mem a = some nd →
    ∃ s', st'.mem a = some ⟨nd.head, s'⟩ ∧
      ∀ r, nd.slot = TailSlot.mat r → s' = TailSlot.mat r

theorem Pres.refl' {E : Type} (st : St E) : Pres st st :=
  ⟨le_rfl, fun _ nd h => ⟨nd.slot, h, fun _ hr => hr⟩⟩

theorem Pres.trans' {E : Type} {s t u : St E} (h₁ : Pres s t) (h₂ : Pres t u) :
    Pres s u := by
  refine ⟨le_trans h₁.1 h₂.1, fun a nd h => ?_⟩
  obtain ⟨s₁, hmem₁, hc₁⟩ := h₁.2 a nd h
  obtain ⟨s₂, hmem₂, hc₂⟩ := h₂.2 a ⟨nd.head, s₁⟩ hmem₁
  exact ⟨s₂, hmem₂, fun r hr => hc₂ r (hc₁ r hr)⟩

theorem alloc_pres {E : Type} {st : St E} (hwf : WFSt st) (nd : Node E) :
    WFSt (St.alloc st nd).2 ∧ Pres st (St.alloc st nd).2 := by
  refine ⟨?_, ?_, fun a nd' h => ?_⟩
  · intro a ha
    have h1 : a ≠ st.size := by simp [St.alloc] at ha; omega
    have h2 : st.size ≤ a := by simp [St.alloc] at ha; omega
    simp [St.alloc, h1, hwf a h2]
  · simp [St.alloc]
  · have hlt : a ≠ st.size := by
      intro he; rw [he] at h; rw [hwf st.size le_rfl] at h; exact absurd h (by simp)
    exact ⟨nd'.slot, by simpa [St.alloc, hlt] using h, fun _ hr => hr⟩

theorem bump_pres {E : Type} (st : St E) :
    (WFSt st → WFSt (St.bump st)) ∧ Pres st (St.bump st) := by
  refine ⟨fun hwf a ha => hwf a ha, le_rfl, fun a nd h => ⟨nd.slot, h, fun _ hr => hr⟩⟩

theorem mapCont_pres {E : Type} {C : GenCtx E} {r : Option Nat} {st : St E}
    {x : Option Nat} {st' : St E} (hwf : WFSt st)
    (h : mapCont C r st = some (x, st')) : WFSt st' ∧ Pres st st' := by
  match r with
  | none =>
    simp [mapCont] at h
    rw [← h.2]
    exact ⟨hwf, Pres.refl' st⟩
  | some a =>
    simp only [mapCont] at h
    match hm : st.mem a with
    | none => rw [hm] at h; simp at h
    | some nd =>
      rw [hm] at h
      simp only [Option.some.injEq, Prod.mk.injEq] at h
      rw [← h.2]
      exact ⟨(alloc_pres hwf _).1, (alloc_pres hwf _).2⟩

/-- A successful interpreter step preserves well-formedness, keeps every
existing node allocated with an unchanged head, and never moves a
materialized tail slot back to the pending state. -/
theorem exec_pres {E : Type} (C : GenCtx E) :
    ∀ fuel t st x st', WFSt st → exec C fuel t st = some (x, st') →
      WFSt st' ∧ Pres st st' := by
  intro fuel
  induction fuel with
  | zero => intro t st x st' _ h; simp [exec] at h
  | succ n ih =>
    intro t st x st' hwf hex
    match t with
    | Job.force a =>
      simp only [exec] at hex
      split at hex
      · exact absurd hex (by simp)
      next nd hm =>
        split at hex
        next r hs =>
          simp only [Option.some.injEq, Prod.mk.injEq] at hex
          rw [← hex.2]
          exact ⟨hwf, Pres.refl' st⟩
        next c hs =>
          match hp : exec C n (Job.run c) st with
          | none => rw [hp] at hex; simp at hex
          | some p =>
            simp only [hp, Option.map_some', Option.some.injEq, Prod.mk.injEq] at hex
            obtain ⟨hwf2, hpres2⟩ := ih (Job.run c) st p.1 p.2 hwf (by rw [hp])
            rw [← hex.2]
            constructor
            · intro b hb
              have hb' : p.2.size ≤ b := hb
              by_cases hba : b = a <;> simp [St.setSlot, hba, hwf2 _ hb']
              rw [hba] at hb'; simp [hwf2 a hb']
            · refine ⟨hpres2.1, fun b nd' hmem => ?_⟩
              obtain ⟨s₁, hmem₁, hc₁⟩ := hpres2.2 b nd' hmem
              by_cases hba : b = a
              · subst hba
                have hnd : nd' = nd := by
                  rw [hmem] at hm; exact Option.some.inj hm
                refine ⟨TailSlot.mat p.1, ?_, ?_⟩
                · simp [St.setSlot, hmem₁]
                · intro r hr
                  rw [hnd, hs] at hr; cases hr
              · exact ⟨s₁, by simp [St.setSlot, hba, hmem₁], hc₁⟩
    | Job.run (Code.gen m) =>
      simp only [exec] at hex
      by_cases hL : m < C.len
      · rw [if_pos hL] at hex
        simp only [Option.some.injEq, Prod.mk.injEq] at hex
        rw [← hex.2]
        have hwfb : WFSt (St.bump st) := (bump_pres st).1 hwf
        exact ⟨(alloc_pres hwfb _).1,
               Pres.trans' (bump_pres st).2 (alloc_pres hwfb _).2⟩
      · rw [if_neg hL] at hex
        simp only [Option.some.injEq, Prod.mk.injEq] at hex
        rw [← hex.2]
        exact ⟨(bump_pres st).1 hwf, (bump_pres st).2⟩
    | Job.run (Code.mapF (SrcFn.ret a)) =>
      simp only [exec] at hex
      exact mapCont_pres hwf hex
    | Job.run (Code.mapF (SrcFn.tailOf a)) =>
      simp only [exec] at hex
      match hp : exec C n (Job.force a) st with
      | none => rw [hp] at hex; simp at hex
      | some p =>
        rw [hp] at hex
        simp only [Option.some_bind'] at hex
        obtain ⟨hwf2, hpres2⟩ := ih (Job.force a) st p.1 p.2 hwf (by rw [hp])
        obtain ⟨hwf3, hpres3⟩ := mapCont_pres hwf2 hex
        exact ⟨hwf3, Pres.trans' hpres2 hpres3⟩

/-- Unfolding of `Stream::tail` on a node whose slot is already
materialized: return the cached reference, touch nothing. -/
theorem exec_force_mat {E : Type} (C : GenCtx E) (fuel a : Nat) {st : St E}
    {h : E} {r : Option Nat} (hm : st.mem a = some ⟨h, TailSlot.mat r⟩) :
    exec C (fuel + 1) (Job.force a) st = some (r, st) := by
  simp [exec, hm]

/-- Unfolding of `Stream::tail` on a node whose slot holds a pending
generator: run the generator once, then store the result in the slot. -/
theorem exec_force_pend {E : Type} (C : GenCtx E) (fuel a : Nat) {st : St E}
    {h : E} {c : Code} (hm : st.mem a = some ⟨h, TailSlot.pend c⟩) :
    exec C (fuel + 1) (Job.force a) st =
      (exec C fuel (Job.run c) st).map
        (fun p => (p.1, St.setSlot p.2 a (TailSlot.mat p.1))) := by
  simp [exec, hm]

/-- Repeated `tail` calls also preserve well-formedness, heads, and
materialized slots. -/
theorem callTailRepeatedly_pres {E : Type} (C : GenCtx E) :
    ∀ n fuel b st x st', WFSt st →
      callTailRepeatedly C fuel b st n = some (x, st') →
      WFSt st' ∧ Pres st st' := by
  intro n
  induction n with
  | zero =>
    intro fuel b st x st' hwf hrep
    exact exec_pres C fuel (Job.force b) st x st' hwf hrep
  | succ m ih =>
    intro fuel b st x st' hwf hrep
    simp only [callTailRepeatedly] at hrep
    cases hp : callTailRepeatedly C fuel b st m with
    | none => rw [hp] at hrep; simp at hrep
    | some p =>
      rw [hp] at hrep
      simp only [Option.some_bind'] at hrep
      obtain ⟨hwf1, hpres1⟩ := ih fuel b st p.1 p.2 hwf (by rw [hp])
      obtain ⟨hwf2, hpres2⟩ := exec_pres C fuel (Job.force b) p.2 x st' hwf1 hrep
      exact ⟨hwf2, Pres.trans' hpres1 hpres2⟩

/-! ## Claim theorems for the plumbing components -/

/-- C5: the slot re-construction primitive destroys the value at the given
storage location, constructs a new value there from the constructor
arguments, leaves every other location untouched, and returns the same
storage location, which now holds the newly constructed value. -/
theorem claim_C5_emplace_reconstructs_in_place {T B : Type}
    (mem : Nat → Option T) (a : Nat) (t : T) (ctor : B → T) (args : B)
    (_hlive : mem a = some t) :
    (emplaceAt mem a (ctor args)).2 = a ∧
    (emplaceAt mem a (ctor args)).1 a = some (ctor args) ∧
    (∀ b, b ≠ a → (emplaceAt mem a (ctor args)).1 b = mem b) ∧
    destroyAt mem a a = none := by
  refine ⟨rfl, by simp [emplaceAt, constructAt], fun b hb => ?_,
    by simp [destroyAt]⟩
  simp [emplaceAt, constructAt, destroyAt, hb]

theorem claim_C5_emplace_witness :
    (emplaceAt (fun i => if i = 0 then some 7 else none) 0 ((fun b => b + 1) 4)).2 = 0 ∧
    (emplaceAt (fun i => if i = 0 then some 7 else none) 0 ((fun b => b + 1) 4)).1 0 =
      some ((fun b : Nat => b + 1) 4) ∧
    (∀ b, b ≠ 0 →
      (emplaceAt (fun i => if i = 0 then some 7 else none) 0 ((fun b => b + 1) 4)).1 b =
        (fun i => if i = 0 then some (7 : Nat) else none) b) ∧
    destroyAt (fun i => if i = 0 then some (7 : Nat) else none) 0 0 = none :=
  claim_C5_emplace_reconstructs_in_place (fun i => if i = 0 then some 7 else none)
    0 7 (fun b => b + 1) 4 (by decide)

/-- C3: invoking a `UniqueFunction` after it has been moved from is an
invalid-state failure.  The moved-from handle holds the null holder pointer,
so `operator()` (which dereferences the holder with no null check) cannot
produce a value: the call fails fast (`none`), it is neither swallowed into
a default result nor does it proceed to invoke any callable, while the
move destination still invokes the original callable. -/
theorem claim_C3_invoke_after_move_fails {R : Type} (uf : UniqueFunction R) :
    (UniqueFunction.moveConstruct uf).2.call = none ∧
    (UniqueFunction.moveConstruct uf).2.toBool = false ∧
    (UniqueFunction.moveConstruct uf).1.call = uf.call :=
  ⟨rfl, rfl, rfl⟩

theorem claim_C3_witness :
    (UniqueFunction.moveConstruct ⟨some (fun _ => (7 : Nat))⟩).2.call = none ∧
    (UniqueFunction.moveConstruct ⟨some (fun _ => (7 : Nat))⟩).2.toBool = false ∧
    (UniqueFunction.moveConstruct ⟨some (fun _ => (7 : Nat))⟩).1.call =
      UniqueFunction.call ⟨some (fun _ => (7 : Nat))⟩ :=
  claim_C3_invoke_after_move_fails ⟨some (fun _ => (7 : Nat))⟩

/-! ## Concrete Stream scenarios -/

/-- A generator context with no instrumented source; used for scenarios built
purely from `Cell`/`Nil`, where the context is irrelevant. -/
def trivCtx : GenCtx Nat := ⟨fun n => n, fun x => x, 0⟩

/-- The inner cell `Cell(2, Nil())` of the C6 example. -/
def c6Inner : Option Nat × St Nat := Cell 2 (TailSlot.mat StreamNil) emptySt

/-- The stream `Cell(1, Cell(2, Nil()))` of the C6 example. -/
def c6Outer : Option Nat × St Nat := Cell 1 (TailSlot.mat c6Inner.1) c6Inner.2

/-- C6: for the Stream built as `Cell(1, Cell(2, Nil()))`, iterating from
`begin` yields exactly `[1, 2]` (dereference gives 1, after one increment
dereference gives 2), and the cursor obtained by advancing past the element
2 compares equal to `end()`. -/
theorem claim_C6_end_of_sequence_example :
    (takeHeads trivCtx 3 2 c6Outer.1 c6Outer.2).map Prod.fst = some [1, 2] ∧
    iterDeref (beginRef c6Outer.1) c6Outer.2 = some 1 ∧
    ((iterIncrement trivCtx 3 (beginRef c6Outer.1) c6Outer.2).bind
      (fun q => iterDeref q.1 q.2)) = some 2 ∧
    ((iterIncrement trivCtx 3 (beginRef c6Outer.1) c6Outer.2).bind
      (fun q => iterIncrement trivCtx 3 q.1 q.2)).map
        (fun q => iterEqual q.1 endIter) = some true := by
  decide

/-- First chain `Cell(1, Cell(2, Nil()))` for the C7 example. -/
def c7Chain1 : Option Nat × St Nat :=
  let p := Cell 2 (TailSlot.mat StreamNil) emptySt
  Cell 1 (TailSlot.mat p.1) p.2

/-- Second, structurally identical but separately allocated chain
`Cell(1, Cell(2, Nil()))`, living in the same heap as the first. -/
def c7Chain2 : Option Nat × St Nat :=
  let p := Cell 2 (TailSlot.mat StreamNil) c7Chain1.2
  Cell 1 (TailSlot.mat p.1) p.2

/-- C7: cursor equality is `shared_ptr` identity of the current node — two
cursors compare equal exactly when they hold the same node reference (or are
both null); cursors into two structurally identical chains whose element
values coincide (both traverse as `[1, 2]`) do not compare equal, neither
initially nor after advancing in lockstep. -/
theorem claim_C7_cursor_equality_is_identity :
    (∀ i₁ i₂ : StreamIterator, iterEqual i₁ i₂ = true ↔ i₁.location = i₂.location) ∧
    ((takeHeads trivCtx 3 2 c7Chain1.1 c7Chain2.2).map Prod.fst =
      (takeHeads trivCtx 3 2 c7Chain2.1 c7Chain2.2).map Prod.fst ∧
     (takeHeads trivCtx 3 2 c7Chain1.1 c7Chain2.2).map Prod.fst = some [1, 2] ∧
     iterEqual (beginRef c7Chain1.1) (beginRef c7Chain2.1) = false ∧
     ((iterIncrement trivCtx 3 (beginRef c7Chain1.1) c7Chain2.2).bind (fun q₁ =>
        (iterIncrement trivCtx 3 (beginRef c7Chain2.1) q₁.2).map (fun q₂ =>
          (iterEqual q₁.1 q₂.1, iterDeref q₁.1 q₂.2, iterDeref q₂.1 q₂.2)))) =
        some (false, some 2, some 2)) := by
  refine ⟨fun i₁ i₂ => ?_, by decide⟩
  simp [iterEqual]

theorem claim_C7_witness :
    iterEqual ⟨some 5⟩ ⟨some 5⟩ = true ↔
      (StreamIterator.mk (some 5)).location = (StreamIterator.mk (some 5)).location :=
  claim_C7_cursor_equality_is_identity.1 ⟨some 5⟩ ⟨some 5⟩

/-- C8: `begin` on a Stream reference produces the cursor positioned at the
referenced node when the reference is non-Nil, and the `end()` cursor when
the reference is Nil. -/
theorem claim_C8_begin_position :
    (∀ r : Option Nat, r ≠ StreamNil → (beginRef r).location = r) ∧
    beginRef StreamNil = endIter :=
  ⟨fun r hr => by
    match r with
    | none => exact absurd rfl hr
    | some a => rfl,
   rfl⟩

theorem claim_C8_witness : (beginRef (some 4)).location = some 4 :=
  claim_C8_begin_position.1 (some 4) (by simp [StreamNil])

/-- C10: calling `map` on a (necessarily non-Nil) Stream node applies the
transform to that node's head immediately — the mapped cell holding
`tf nd.head` is allocated at the moment `map` is called, before any element
of the result has been demanded — while the transformation of all subsequent
elements is deferred behind the pending `MapF` generator; no source
generator is invoked (the invocation counter is unchanged) and no existing
node is modified. -/
theorem claim_C10_map_is_eager_on_head {E : Type} (C : GenCtx E)
    (fuel a : Nat) (st : St E) (nd : Node E) (h : st.mem a = some nd) :
    streamMap C (fuel + 1) a st =
      some (some st.size,
        ⟨fun i => if i = st.size then
            some ⟨C.tf nd.head, TailSlot.pend (Code.mapF (SrcFn.tailOf a))⟩
          else st.mem i,
         st.size + 1, st.invocations⟩) := by
  simp [streamMap, exec, mapCont, h, St.alloc]

/-- The one-node heap used to witness C10. -/
def c10St : St Nat := ⟨fun i => if i = 0 then some ⟨5, TailSlot.mat none⟩ else none, 1, 0⟩

theorem claim_C10_witness :
    streamMap trivCtx 3 0 c10St =
      some (some c10St.size,
        ⟨fun i => if i = c10St.size then
            some ⟨trivCtx.tf (Node.mk 5 (TailSlot.mat none)).head,
                  TailSlot.pend (Code.mapF (SrcFn.tailOf 0))⟩
          else c10St.mem i,
         c10St.size + 1, c10St.invocations⟩) :=
  claim_C10_map_is_eager_on_head trivCtx 2 0 c10St ⟨5, TailSlot.mat none⟩ rfl

/-! ## C1: memoization of the tail slot -/

/-- C1: for a node whose tail slot initially holds a pending generator, a
completed call to `tail` materializes the slot with the produced reference;
after that, any number of further calls to `tail` all return the identical
reference `r` and leave the state — including the generator-invocation
counter — completely unchanged, so the generator runs exactly once (for the
instrumented generator `Code.gen m`, the counter increases by exactly one on
the first call); and no later interpreter step of any kind ever moves the
slot back to the pending state. -/
theorem claim_C1_tail_memoized_once {E : Type} (C : GenCtx E) (fuel a : Nat)
    (st : St E) (h : E) (c : Code) (r : Option Nat) (st₁ : St E)
    (hwf : WFSt st) (hpend : st.mem a = some ⟨h, TailSlot.pend c⟩)
    (hforce : exec C (fuel + 1) (Job.force a) st = some (r, st₁)) :
    st₁.mem a = some ⟨h, TailSlot.mat r⟩ ∧
    (∀ n, callTailRepeatedly C (fuel + 1) a st n = some (r, st₁)) ∧
    (∀ fuel' t x st₂, exec C fuel' t st₁ = some (x, st₂) →
      st₂.mem a = some ⟨h, TailSlot.mat r⟩) ∧
    (∀ m, c = Code.gen m → st₁.invocations = st.invocations + 1) := by
  obtain ⟨hwf₁, _⟩ := exec_pres C (fuel + 1) (Job.force a) st r st₁ hwf hforce
  rw [exec_force_pend C fuel a hpend] at hforce
  cases hp : exec C fuel (Job.run c) st with
  | none => rw [hp] at hforce; simp at hforce
  | some p =>
    rw [hp] at hforce
    simp only [Option.map_some', Option.some.injEq, Prod.mk.injEq] at hforce
    obtain ⟨hr, hst⟩ := hforce
    obtain ⟨hwfp, hpresp⟩ := exec_pres C fuel (Job.run c) st p.1 p.2 hwf (by rw [hp])
    obtain ⟨s₁, hmem₁, _⟩ := hpresp.2 a ⟨h, TailSlot.pend c⟩ hpend
    have st₁mem : st₁.mem a = some ⟨h, TailSlot.mat r⟩ := by
      rw [← hst, ← hr]
      simp [St.setSlot, hmem₁]
    refine ⟨st₁mem, ?_, ?_, ?_⟩
    · intro n
      induction n with
      | zero =>
        simp only [callTailRepeatedly]
        rw [exec_force_pend C fuel a hpend, hp]
        simp only [Option.map_some']
        rw [hst, hr]
      | succ m ihn =>
        simp only [callTailRepeatedly]
        rw [ihn]
        simp only [Option.some_bind']
        exact exec_force_mat C fuel a st₁mem
    · intro fuel' t x st₂ hex2
      obtain ⟨_, hpres₂⟩ := exec_pres C fuel' t st₁ x st₂ hwf₁ hex2
      obtain ⟨s', hmem', hc'⟩ := hpres₂.2 a ⟨h, TailSlot.mat r⟩ st₁mem
      rw [hc' r rfl] at hmem'
      exact hmem'
    · intro m hc
      subst hc
      rw [← hst]
      simp only [St.setSlot]
      cases fuel with
      | zero => simp [exec] at hp
      | succ k =>
        simp only [exec] at hp
        split at hp
        · obtain rfl := Option.some.inj hp
          simp [St.alloc, St.bump]
        · obtain rfl := Option.some.inj hp
          simp [St.bump]

/-- The generator context for the C1 witness. -/
def c1Ctx : GenCtx Nat := ⟨fun n => n + 10, fun x => x, 3⟩

/-- One node with a pending instrumented generator, for the C1 witness. -/
def c1St : St Nat :=
  ⟨fun i => if i = 0 then some ⟨99, TailSlot.pend (Code.gen 0)⟩ else none, 1, 0⟩

/-- The state the machine reaches after the first `tail` call on `c1St`. -/
def c1StAfter : St Nat :=
  St.setSlot (St.alloc (St.bump c1St) ⟨10, TailSlot.pend (Code.gen 1)⟩).2 0
    (TailSlot.mat (some 1))

theorem c1St_wf : WFSt c1St := by
  intro a ha
  simp only [c1St] at ha ⊢
  rw [if_neg (by omega)]

theorem claim_C1_witness :
    c1StAfter.mem 0 = some ⟨99, TailSlot.mat (some 1)⟩ ∧
    (∀ n, callTailRepeatedly c1Ctx 2 0 c1St n = some (some 1, c1StAfter)) ∧
    (∀ fuel' t x st₂, exec c1Ctx fuel' t c1StAfter = some (x, st₂) →
      st₂.mem 0 = some ⟨99, TailSlot.mat (some 1)⟩) ∧
    (∀ m, Code.gen 0 = Code.gen m → c1StAfter.invocations = c1St.invocations + 1) :=
  claim_C1_tail_memoized_once c1Ctx 1 0 c1St 99 (Code.gen 0) (some 1) c1StAfter
    c1St_wf rfl rfl

/-! ## C9: head is pure and unaffected by tail forcing -/

/-- C9: `head` has no side effects — calling it returns the stored head and
the state it was given, unchanged; and the value of `head(n)` is unchanged
by any interpreter step, in particular by any number of calls to `tail`
(forcing mutates only tail slots, never a head). -/
theorem claim_C9_head_no_side_effects {E : Type} (C : GenCtx E) :
    (∀ (st : St E) (a : Nat), headCall st a = (headOf st a, st)) ∧
    (∀ fuel t st x st' a nd, WFSt st → exec C fuel t st = some (x, st') →
      st.mem a = some nd → headOf st' a = some nd.head) ∧
    (∀ fuel b st n x st' a nd, WFSt st →
      callTailRepeatedly C fuel b st n = some (x, st') →
      st.mem a = some nd → headOf st' a = some nd.head) := by
  refine ⟨fun st a => rfl, ?_, ?_⟩
  · intro fuel t st x st' a nd hwf hex hmem
    obtain ⟨_, hpres⟩ := exec_pres C fuel t st x st' hwf hex
    obtain ⟨s', hmem', _⟩ := hpres.2 a nd hmem
    simp [headOf, hmem']
  · intro fuel b st n x st' a nd hwf hrep hmem
    obtain ⟨_, hpres⟩ := callTailRepeatedly_pres C n fuel b st x st' hwf hrep
    obtain ⟨s', hmem', _⟩ := hpres.2 a nd hmem
    simp [headOf, hmem']

theorem claim_C9_witness :
    headOf c1StAfter 0 = some (Node.mk 99 (TailSlot.pend (Code.gen 0))).head :=
  (claim_C9_head_no_side_effects c1Ctx).2.1 2 (Job.force 0) c1St (some 1)
    c1StAfter 0 ⟨99, TailSlot.pend (Code.gen 0)⟩ c1St_wf rfl rfl

/-! ## The instrumented map scenario (C2 and C4)

The spec's laziness property is verified "via a counting instrumented
generator": the source stream is produced by `Code.gen`, which counts its
own invocations in `St.invocations`, and the mapped stream is obtained by
`Stream::map`.  `chainSt C k` is the heap after the source head has been
created (one generator invocation), `map` has been called on it, and `k - 1`
further elements of the mapped stream have been demanded: source node `j`
lives at address `2*j`, mapped node `j` at `2*j+1`, exactly `k` nodes of
each chain exist, and the counter reads `k`. -/

/-- Tail slot of source node `j` when `k` nodes are materialized: the last
source node still holds its pending generator, all earlier ones hold the
materialized reference to the next source node. -/
def sSlot (k j : Nat) : TailSlot :=
  if j + 1 = k then TailSlot.pend (Code.gen k)
  else TailSlot.mat (some (2 * j + 2))

/-- Tail slot of mapped node `j` when `k` nodes are materialized. -/
def mSlot (k j : Nat) : TailSlot :=
  if j + 1 = k then TailSlot.pend (Code.mapF (SrcFn.tailOf (2 * j)))
  else TailSlot.mat (some (2 * j + 3))

/-- The heap of the instrumented map scenario with `k` materialized
source/mapped node pairs. -/
def chainSt {E : Type} (C : GenCtx E) (k : Nat) : St E :=
  ⟨fun i =>
    if i < 2 * k then
      some (if i % 2 = 0 then ⟨C.elem (i / 2), sSlot k (i / 2)⟩
            else ⟨C.tf (C.elem (i / 2)), mSlot k (i / 2)⟩)
    else none,
   2 * k, k⟩

theorem chainSt_mem_even {E : Type} (C : GenCtx E) (k i : Nat) (hik : i < k) :
    (chainSt C k).mem (2 * i) = some ⟨C.elem i, sSlot k i⟩ := by
  have h1 : 2 * i < 2 * k := by omega
  have h2 : 2 * i % 2 = 0 := by omega
  have h3 : 2 * i / 2 = i := by omega
  simp [chainSt, h1, h2, h3]

theorem chainSt_mem_odd {E : Type} (C : GenCtx E) (k i : Nat) (hik : i < k) :
    (chainSt C k).mem (2 * i + 1) = some ⟨C.tf (C.elem i), mSlot k i⟩ := by
  have h1 : 2 * i + 1 < 2 * k := by omega
  have h2 : (2 * i + 1) % 2 = 1 := by omega
  have h3 : (2 * i + 1) / 2 = i := by omega
  simp [chainSt, h1, h2, h3]

/-- Unfolding of a generator-closure run for `MapF` with the recursive
`src_` (`[src]() \x7b return src->tail(); \x7d`). -/
theorem exec_run_tailOf {E : Type} (C : GenCtx E) (fuel a : Nat) (st : St E) :
    exec C (fuel + 1) (Job.run (Code.mapF (SrcFn.tailOf a))) st =
      (exec C fuel (Job.force a) st).bind (fun p => mapCont C p.1 p.2) := rfl

/-- Unfolding of one invocation of the counting instrumented generator. -/
theorem exec_run_gen {E : Type} (C : GenCtx E) (fuel n : Nat) (st : St E) :
    exec C (fuel + 1) (Job.run (Code.gen n)) st =
      if n < C.len then
        some (some st.size,
          (St.alloc (St.bump st) ⟨C.elem n, TailSlot.pend (Code.gen (n + 1))⟩).2)
      else some (none, St.bump st) := rfl

/-- Unfolding of the `MapF` continuation on a non-null source reference. -/
theorem mapCont_some {E : Type} (C : GenCtx E) {st : St E} {a : Nat}
    {nd : Node E} (hm : st.mem a = some nd) :
    mapCont C (some a) st =
      some (some st.size,
        (St.alloc st ⟨C.tf nd.head, TailSlot.pend (Code.mapF (SrcFn.tailOf a))⟩).2) := by
  simp [mapCont, hm, St.alloc]

/-- One demand step of the scenario: forcing the tail of the last mapped
node forces exactly one source tail (one generator invocation, one new
source node) and materializes exactly one new mapped node. -/
theorem chain_step {E : Type} (C : GenCtx E) (F j : Nat) (hj : j + 2 ≤ C.len) :
    exec C (F + 4) (Job.force (2 * j + 1)) (chainSt C (j + 1)) =
      some (some (2 * j + 3), chainSt C (j + 2)) := by
  have h₁ : (chainSt C (j + 1)).mem (2 * j + 1) =
      some ⟨C.tf (C.elem j), TailSlot.pend (Code.mapF (SrcFn.tailOf (2 * j)))⟩ := by
    rw [chainSt_mem_odd C (j + 1) j (by omega)]
    simp [mSlot]
  have h₂ : (chainSt C (j + 1)).mem (2 * j) =
      some ⟨C.elem j, TailSlot.pend (Code.gen (j + 1))⟩ := by
    rw [chainSt_mem_even C (j + 1) j (by omega)]
    simp [sSlot]
  have hc : j + 1 < C.len := by omega
  rw [exec_force_pend C (F + 3) (2 * j + 1) h₁,
      exec_run_tailOf C (F + 2) (2 * j),
      exec_force_pend C (F + 1) (2 * j) h₂,
      exec_run_gen C F (j + 1), if_pos hc]
  simp only [Option.map_some', Option.some_bind']
  have hsize : (chainSt C (j + 1)).size = 2 * j + 2 := by
    simp only [chainSt]; omega
  rw [hsize]
  have hmB : (((chainSt C (j + 1)).bump.alloc
        ⟨C.elem (j + 1), TailSlot.pend (Code.gen (j + 1 + 1))⟩).2.setSlot
        (2 * j) (TailSlot.mat (some (2 * j + 2)))).mem (2 * j + 2) =
      some ⟨C.elem (j + 1), TailSlot.pend (Code.gen (j + 1 + 1))⟩ := by
    simp only [St.setSlot, St.alloc, St.bump]
    rw [if_neg (by omega)]
    simp only [chainSt]
    rw [if_pos (by omega)]
  rw [mapCont_some C hmB]
  simp only [Option.map_some']
  have hsizeB : ((((chainSt C (j + 1)).bump.alloc
        ⟨C.elem (j + 1), TailSlot.pend (Code.gen (j + 1 + 1))⟩).2.setSlot
        (2 * j) (TailSlot.mat (some (2 * j + 2))))).size = 2 * j + 3 := by
    simp only [St.setSlot, St.alloc, St.bump, chainSt]
    omega
  rw [hsizeB]
  simp only [Option.some.injEq, Prod.mk.injEq]
  refine ⟨trivial, ?_⟩
  apply St.ext
  · funext i
    simp only [St.setSlot, St.alloc, St.bump, chainSt]
    by_cases hi1 : i = 2 * j + 1
    · subst hi1
      have e1 : ¬(2 * j + 1 = 2 * (j + 1) + 1) := by omega
      have e2 : ¬(2 * j + 1 = 2 * j) := by omega
      have e3 : ¬(2 * j + 1 = 2 * (j + 1)) := by omega
      have e4 : 2 * j + 1 < 2 * (j + 1) := by omega
      have e5 : (2 * j + 1) % 2 = 1 := by omega
      have e6 : (2 * j + 1) / 2 = j := by omega
      have e7 : ¬(j + 1 = j + 2) := by omega
      have e8 : 2 * j + 1 < 2 * (j + 2) := by omega
      simp [e1, e2, e3, e4, e5, e6, e7, e8, mSlot]
    by_cases hi2 : i = 2 * j
    · subst hi2
      have e1 : ¬(2 * j = 2 * (j + 1) + 1) := by omega
      have e2 : ¬(2 * j = 2 * (j + 1)) := by omega
      have e3 : 2 * j < 2 * (j + 1) := by omega
      have e4 : 2 * j % 2 = 0 := by omega
      have e5 : 2 * j / 2 = j := by omega
      have e6 : ¬(j + 1 = j + 2) := by omega
      have e7 : 2 * j < 2 * (j + 2) := by omega
      simp [hi1, e1, e2, e3, e4, e5, e6, e7, sSlot]
    by_cases hi3 : i = 2 * (j + 1)
    · subst hi3
      have e1 : ¬(2 * (j + 1) = 2 * j + 1) := by omega
      have e2 : ¬(2 * (j + 1) = 2 * (j + 1) + 1) := by omega
      have e3 : ¬(2 * (j + 1) = 2 * j) := by omega
      have e4 : 2 * (j + 1) < 2 * (j + 2) := by omega
      have e5 : 2 * (j + 1) % 2 = 0 := by omega
      have e6 : 2 * (j + 1) / 2 = j + 1 := by omega
      have e7 : j + 1 + 1 = j + 2 := rfl
      simp [e1, e2, e3, e4, e5, e6, e7, sSlot]
    by_cases hi4 : i = 2 * (j + 1) + 1
    · subst hi4
      have e1 : ¬(2 * (j + 1) + 1 = 2 * j + 1) := by omega
      have e2 : 2 * (j + 1) + 1 < 2 * (j + 2) := by omega
      have e3 : (2 * (j + 1) + 1) % 2 = 1 := by omega
      have e4 : (2 * (j + 1) + 1) / 2 = j + 1 := by omega
      have e5 : j + 1 + 1 = j + 2 := rfl
      simp [e1, e2, e3, e4, e5, mSlot]
      omega
    by_cases hlt : i < 2 * (j + 1)
    · have g1 : ¬(i / 2 + 1 = j + 1) := by omega
      have g2 : ¬(i / 2 + 1 = j + 2) := by omega
      have g3 : i < 2 * (j + 2) := by omega
      simp [hi1, hi2, hi3, hi4, hlt, g1, g2, g3, sSlot, mSlot]
    · have g4 : ¬(i < 2 * (j + 2)) := by omega
      simp [hi1, hi2, hi3, hi4, hlt, g4]
  · simp only [St.setSlot, St.alloc, St.bump, chainSt]
    omega
  · simp only [St.setSlot, St.alloc, St.bump, chainSt]

/-- Unfolding of a generator-closure run for `MapF` with the initial
`src_` (`[sharedThis]() \x7b return sharedThis; \x7d`). -/
theorem exec_run_ret {E : Type} (C : GenCtx E) (fuel a : Nat) (st : St E) :
    exec C (fuel + 1) (Job.run (Code.mapF (SrcFn.ret a))) st =
      mapCont C (some a) st := rfl

/-- The expected head values of a traversal: `seqMap g j k` is
`[g j, g (j+1), ..., g (j+k-1)]`. -/
def seqMap {E : Type} (g : Nat → E) : Nat → Nat → List E
  | _, 0 => []
  | j, k + 1 => g j :: seqMap g (j + 1) k

theorem seqMap_eq_range_map {E : Type} (g : Nat → E) :
    ∀ k j, seqMap g j k = (List.range k).map (fun i => g (j + i)) := by
  intro k
  induction k with
  | zero => intro j; simp [seqMap]
  | succ n ih =>
    intro j
    rw [List.range_succ_eq_map]
    simp only [List.map_cons, List.map_map, seqMap]
    refine congrArg₂ List.cons (by simp) ?_
    rw [ih (j + 1)]
    have hfun : ((fun i => g (j + i)) ∘ Nat.succ) = fun i => g (j + 1 + i) := by
      funext i
      simp only [Function.comp]
      congr 1
      omega
    rw [hfun]

/-- Demanding `k ≤ len` heads of the mapped stream, starting at mapped node
`j` in the stage-`(j+1)` heap, yields the transformed source elements and
lands exactly in the stage-`(j+k)` heap. -/
theorem takeHeads_chain {E : Type} (C : GenCtx E) (F : Nat) :
    ∀ k j, 1 ≤ k → j + k ≤ C.len →
      takeHeads C (F + 4) k (some (2 * j + 1)) (chainSt C (j + 1)) =
        some (seqMap (fun i => C.tf (C.elem i)) j k, chainSt C (j + k)) := by
  intro k
  induction k with
  | zero => intro j h1 _; omega
  | succ n ih =>
    intro j _ hlen
    match n with
    | 0 =>
      have hm := chainSt_mem_odd C (j + 1) j (by omega)
      simp [takeHeads, hm, seqMap]
    | m + 1 =>
      have hm := chainSt_mem_odd C (j + 1) j (by omega)
      have hstep := chain_step C F j (by omega)
      have ihh := ih (j + 1) (by omega) (by omega)
      have h23 : 2 * (j + 1) + 1 = 2 * j + 3 := by omega
      have hjm : j + 1 + (m + 1) = j + (m + 2) := by omega
      rw [h23, hjm] at ihh
      simp only [takeHeads]
      rw [hm]
      simp only [Option.some_bind']
      rw [hstep]
      simp only [Option.some_bind']
      rw [ihh]
      simp only [Option.map_some']
      rfl

/-- The heap after the source head has been produced by one invocation of
the instrumented generator (`Cell(elem 0, gen 1)` at address 0, counter 1). -/
def gSt {E : Type} (C : GenCtx E) : St E :=
  ⟨fun i => if i = 0 then some ⟨C.elem 0, TailSlot.pend (Code.gen 1)⟩ else none, 1, 1⟩

/-- Producing the source head: one generator invocation on the empty heap. -/
theorem scenario_setup {E : Type} (C : GenCtx E) (F : Nat) (hL : 0 < C.len) :
    exec C (F + 4) (Job.run (Code.gen 0)) emptySt = some (some 0, gSt C) := by
  rw [exec_run_gen C (F + 3) 0, if_pos hL]
  simp only [Option.some.injEq, Prod.mk.injEq]
  refine ⟨rfl, St.ext ?_ rfl rfl⟩
  funext i
  by_cases h0 : i = 0 <;> simp [St.alloc, St.bump, emptySt, gSt, h0]

/-- Calling `map` on the source head: the first mapped cell is allocated
immediately, no generator runs, and the heap is exactly `chainSt C 1`. -/
theorem scenario_map {E : Type} (C : GenCtx E) (F : Nat) :
    streamMap C (F + 4) 0 (gSt C) = some (some 1, chainSt C 1) := by
  have hm : (gSt C).mem 0 = some ⟨C.elem 0, TailSlot.pend (Code.gen 1)⟩ := by
    simp [gSt]
  simp only [streamMap]
  rw [exec_run_ret C (F + 3) 0, mapCont_some C hm]
  simp only [Option.some.injEq, Prod.mk.injEq]
  refine ⟨rfl, St.ext ?_ rfl rfl⟩
  funext i
  by_cases h0 : i = 0
  · subst h0
    simp [St.alloc, gSt, chainSt, sSlot]
  by_cases h1 : i = 1
  · subst h1
    simp [St.alloc, gSt, chainSt, mSlot]
  · have h2 : ¬(i < 2) := by omega
    simp [St.alloc, gSt, chainSt, h0, h1, h2]

/-- The full instrumented scenario of the spec's laziness property: run the
counting generator once to obtain the source head, call `map` on it, then
demand `k` heads of the mapped stream. -/
def mapScenario {E : Type} (C : GenCtx E) (F k : Nat) : Option (List E × St E) :=
  (exec C (F + 4) (Job.run (Code.gen 0)) emptySt).bind (fun p =>
    p.1.bind (fun s0 =>
      (streamMap C (F + 4) s0 p.2).bind (fun q =>
        q.1.bind (fun m0 => takeHeads C (F + 4) k (some m0) q.2))))

theorem mapScenario_eq {E : Type} (C : GenCtx E) (F k : Nat)
    (h1 : 1 ≤ k) (h2 : k ≤ C.len) :
    mapScenario C F k =
      some (seqMap (fun i => C.tf (C.elem i)) 0 k, chainSt C k) := by
  have h0 : (0 : Nat) < C.len := by omega
  simp only [mapScenario]
  rw [scenario_setup C F h0]
  simp only [Option.some_bind']
  rw [scenario_map C F]
  simp only [Option.some_bind']
  have hTC := takeHeads_chain C F k 0 h1 (by omega)
  rw [Nat.zero_add k] at hTC
  exact hTC

/-! ## C2 and C4: the laziness bound for map and mapping the identity -/

/-- C2: laziness bound for `map`, verified with the counting instrumented
generator.  Starting from the source head (whose creation is the first of
the counted generator invocations) and `m = map(s, tf)`, demanding `k ≤ len`
elements of `m` yields the `k` transformed source heads and leaves the heap
in the stage-`k` state: the invocation counter reads exactly `k`, exactly
the source nodes `0 .. k-1` exist (addresses `2*i` for `i < k`), and no
further source node was forced — forcing `k` elements of the mapped stream
forces exactly `k` elements of the source, no more and no fewer. -/
theorem claim_C2_map_laziness_one_to_one {E : Type} (C : GenCtx E) (F k : Nat)
    (h1 : 1 ≤ k) (h2 : k ≤ C.len) :
    mapScenario C F k =
      some ((List.range k).map (fun i => C.tf (C.elem i)), chainSt C k) ∧
    (chainSt C k).invocations = k ∧
    (∀ i, i < k → (chainSt C k).mem (2 * i) = some ⟨C.elem i, sSlot k i⟩) ∧
    (∀ i, k ≤ i → (chainSt C k).mem (2 * i) = none) := by
  refine ⟨?_, rfl, fun i hi => chainSt_mem_even C k i hi, fun i hi => ?_⟩
  · rw [mapScenario_eq C F k h1 h2, seqMap_eq_range_map]
    simp
  · simp only [chainSt]
    rw [if_neg (by omega)]

/-- The generator context used to witness C2. -/
def c2Ctx : GenCtx Nat := ⟨fun n => n, fun x => x + 100, 5⟩

theorem claim_C2_witness :
    mapScenario c2Ctx 0 3 =
      some ((List.range 3).map (fun i => c2Ctx.tf (c2Ctx.elem i)), chainSt c2Ctx 3) ∧
    (chainSt c2Ctx 3).invocations = 3 ∧
    (∀ i, i < 3 → (chainSt c2Ctx 3).mem (2 * i) = some ⟨c2Ctx.elem i, sSlot 3 i⟩) ∧
    (∀ i, 3 ≤ i → (chainSt c2Ctx 3).mem (2 * i) = none) :=
  claim_C2_map_laziness_one_to_one c2Ctx 0 3 (by decide) (by decide)

/-- C4: mapping the identity transform over a generator-built Stream yields,
for any `1 ≤ k ≤ len`, first head values equal to the corresponding source
head values, element-for-element: the demanded heads of the mapped stream
are `[elem 0, ..., elem (k-1)]`, and the source node `i` holds head
`elem i` in the final heap. -/
theorem claim_C4_map_identity_preserves_heads {E : Type} (elem : Nat → E)
    (L F k : Nat) (h1 : 1 ≤ k) (h2 : k ≤ L) :
    mapScenario ⟨elem, fun x => x, L⟩ F k =
      some ((List.range k).map elem, chainSt ⟨elem, fun x => x, L⟩ k) ∧
    (∀ i, i < k →
      headOf (chainSt ⟨elem, fun x => x, L⟩ k) (2 * i) = some (elem i)) := by
  refine ⟨?_, fun i hi => ?_⟩
  · rw [mapScenario_eq ⟨elem, fun x => x, L⟩ F k h1 h2, seqMap_eq_range_map]
    simp
  · rw [headOf, chainSt_mem_even ⟨elem, fun x => x, L⟩ k i hi]
    simp

theorem claim_C4_witness :
    mapScenario ⟨fun n => n * n, fun x => x, 4⟩ 0 2 =
      some ((List.range 2).map (fun n => n * n),
        chainSt ⟨fun n => n * n, fun x => x, 4⟩ 2) ∧
    (∀ i, i < 2 →
      headOf (chainSt ⟨fun n => n * n, fun x => x, 4⟩ 2) (2 * i) =
        some ((fun n => n * n) i)) :=
  claim_C4_map_identity_preserves_heads (fun n => n * n) 4 0 2 (by decide) (by decide)

end FunctionalCxx
